import Mathlib

set_option maxHeartbeats 1000000

/-!
Shallow embedding of the result-aggregation engine of the Landing-Page
repository (`landing_page/process_results.py`,
`landing_page/process_official_results.py`, `landing_page/generate_data.py`).

Conventions of the embedding:
* JSON numbers are rationals (`ℚ`); `int(step)` values are `Int`.
* A JSON field that may be absent (read with `.get(...)`) is an `Option`.
* Python dictionaries built by insertion (`defaultdict` and plain dicts) are
  association lists in insertion order, matching dict iteration order.
* The step-indexed dictionary `step_to_values = {s: [] for s in range(max_step+1)}`
  is a total function `Int → List ℚ` together with the explicit key range;
  indexing a key outside `0 .. max_step` is a Python `KeyError`, so the code
  that appends into it runs in `Except String`.
* Python truthiness on an optional float (`a or b`, `if steps:` …) treats
  `None` and `0.0` as falsy; this is modelled explicitly (`pyOr`, `isEmpty`).
-/

namespace LandingPage

/-- Python `a or b` on two optional floats: the left value wins when it is
truthy (present and nonzero), otherwise the right value is returned.
Mirrors `record.get('best_value_so_far') or record.get('current_best')`. -/
def pyOr (a b : Option ℚ) : Option ℚ :=
  match a with
  | some v => if v = 0 then b else some v
  | none => b

/-- One entry of `optimization_history`: the three fields the code reads. -/
structure HistRecord where
  step : Option Int
  best_value_so_far : Option ℚ
  current_best : Option ℚ
deriving DecidableEq, Repr

/-- The per-record extraction of `collect_open_race_histories`
(`process_results.py` lines 56–61, `process_official_results.py` 168–173):
`step = record.get('step')`,
`best_value = record.get('best_value_so_far') or record.get('current_best')`,
keep the pair when `step is not None and best_value is not None`. -/
def extractRecord (r : HistRecord) : Option (Int × ℚ) :=
  match r.step, pyOr r.best_value_so_far r.current_best with
  | some s, some v => some (s, v)
  | _, _ => none

/-- The in-place monotonicity repair loop
`for i in range(1, n): if v[i] < v[i-1]: v[i] = v[i-1]`, continued from a
previous (already repaired) value `prev`. -/
def repairFrom (prev : ℚ) : List ℚ → List ℚ
  | [] => []
  | x :: xs => (if x < prev then prev else x) :: repairFrom (if x < prev then prev else x) xs

/-- Monotonicity repair of a whole value list (the first element is left as
is, every later element is clamped up to its repaired predecessor). -/
def repairVals : List ℚ → List ℚ
  | [] => []
  | x :: xs => x :: repairFrom x xs

/-- Comparison of `(step, value)` pairs by step, used to model
`np.argsort(step_indices)` followed by permuting both lists. -/
def stepLE (a b : Int × ℚ) : Prop := a.1 ≤ b.1

instance : DecidableRel stepLE := fun a b => Int.decLe a.1 b.1

instance : IsTotal (Int × ℚ) stepLE := ⟨fun a b => Int.le_total a.1 b.1⟩

instance : IsTrans (Int × ℚ) stepLE := ⟨fun _ _ _ h h' => le_trans h h'⟩

/-- Sort the extracted `(step, value)` pairs by step ascending. -/
def sortPairs (l : List (Int × ℚ)) : List (Int × ℚ) := List.insertionSort stepLE l

/-- One trial's processed history: the sorted step indices and the repaired
best values, as appended to `per_optimizer_histories[name]`. -/
structure Run where
  steps : List Int
  values : List ℚ
deriving DecidableEq, Repr

/-- Per-trial normalization of `collect_open_race_histories`: extract the
valid `(step, value)` pairs, return nothing when none survive
(`if step_indices:`), otherwise sort by step and repair monotonicity. -/
def processHistory (recs : List HistRecord) : Option Run :=
  let pairs := recs.filterMap extractRecord
  if pairs.isEmpty then none
  else
    let sorted := sortPairs pairs
    some ⟨sorted.map Prod.fst, repairVals (sorted.map Prod.snd)⟩

/-- `optimizer_results` value for Open Race competitions: only the
`optimization_history` field is read (absent defaults to `[]`). -/
structure OptResult where
  optimization_history : List HistRecord
deriving DecidableEq, Repr

/-- One competition: its `optimizer_results` mapping in iteration order. -/
structure Competition where
  optimizer_results : List (String × OptResult)
deriving DecidableEq, Repr

/-- A wrapper object that may carry a `competitions` key
(`data["results"]` or `data["tournament_results"]`). -/
structure OpenWrapper where
  competitions : Option (List Competition)
deriving DecidableEq, Repr

/-- An Open Race result document, with the three top-level keys probed by
`process_official_results.collect_open_race_histories` (lines 148–155). -/
structure OpenRaceDoc where
  results : Option OpenWrapper
  competitions : Option (List Competition)
  tournament_results : Option OpenWrapper
deriving DecidableEq, Repr

/-- Shape detection of `collect_open_race_histories`
(`process_official_results.py` lines 148–157): prefer
`data["results"]["competitions"]`, then a top-level `competitions` list, then
`data.get('tournament_results', {}).get('competitions', [])`. -/
def pickCompetitions (d : OpenRaceDoc) : List Competition :=
  if (d.results.bind OpenWrapper.competitions).isSome then
    (d.results.bind OpenWrapper.competitions).getD []
  else if d.competitions.isSome then
    d.competitions.getD []
  else
    ((d.tournament_results.getD ⟨none⟩).competitions).getD []

/-- `defaultdict(list)`-style append: extend the list stored under `k`,
creating the key at the end of the insertion order when absent. -/
def alAppend {α : Type} (l : List (String × List α)) (k : String) (x : α) :
    List (String × List α) :=
  match l with
  | [] => [(k, [x])]
  | (k', xs) :: rest =>
    if k' = k then (k', xs ++ [x]) :: rest else (k', xs) :: alAppend rest k x

/-- The collection phase of `collect_open_race_histories`: one processed run
appended per optimizer per competition, in iteration order. -/
def collectRuns (d : OpenRaceDoc) : List (String × List Run) :=
  (pickCompetitions d).foldl
    (fun acc comp =>
      comp.optimizer_results.foldl
        (fun acc2 p =>
          match processHistory p.2.optimization_history with
          | some run => alAppend acc2 p.1 run
          | none => acc2) acc) []

/-- The `step_to_values` dictionary, viewed as a total function from step
index to its sample list; its key set `range(max_step + 1)` is kept
implicit and enforced by `stvAppend`. -/
def STV : Type := Int → List ℚ

/-- `step_to_values[s].append(v)`: a `KeyError` when `s` is outside the key
range `0 .. max_step` fixed at dictionary creation. -/
def stvAppend (maxStep : Int) (m : STV) (s : Int) (v : ℚ) : Except String STV :=
  if 0 ≤ s ∧ s ≤ maxStep then
    Except.ok (fun t => if t = s then m s ++ [v] else m t)
  else Except.error "KeyError"

/-- `run_steps[-1] if run_steps else 0`. -/
def lastStepD (r : Run) : Int := r.steps.getLastD 0

/-- `max_step = max(run_steps[-1] if run_steps else 0 for run_steps, _ in runs)`
(Python `max` over a nonempty collection; the `[]` case is unreachable
behind the `if not runs: continue` guard). -/
def maxStepOf (runs : List Run) : Int :=
  match runs.map lastStepD with
  | [] => 0
  | x :: xs => xs.foldl max x

/-- Python `range(a, b)` over integers. -/
def intRange (a b : Int) : List Int :=
  (List.range (b - a).toNat).map (fun (i : ℕ) => a + (i : ℤ))

/-- Processing of one run inside the aggregation loop
(`process_results.py` lines 90–98): append every zipped `(step, value)`
observation, then forward-fill the last value over
`range(run_steps[-1] + 1, max_step + 1)`.  `run_values[-1]` on an empty
value list is a Python `IndexError`. -/
def processRun (maxStep : Int) (m : STV) (r : Run) : Except String STV := do
  let m1 ← (r.steps.zip r.values).foldlM
    (fun acc p => stvAppend maxStep acc p.1 p.2) m
  if r.steps.isEmpty then Except.ok m1
  else if r.values.isEmpty then Except.error "IndexError"
  else
    (intRange (lastStepD r + 1) (maxStep + 1)).foldlM
      (fun acc s => stvAppend maxStep acc s (r.values.getLastD 0)) m1

/-- One aggregated trajectory: `{"steps": ..., "values": ...}`. -/
structure Traj where
  steps : List Int
  values : List ℚ
deriving DecidableEq, Repr

/-- `np.mean` over a sample list (meaningful for nonempty input). -/
def listMean (xs : List ℚ) : ℚ := xs.sum / (xs.length : ℚ)

/-- The final read-out of the aggregation loop:
`agg_steps = sorted(step_to_values.keys())` (which is `[0 .. max_step]`) and
`agg_values = [mean(step_to_values[s]) if step_to_values[s] else 0.0 ...]`. -/
def aggValues (maxStep : Int) (m : STV) : Traj :=
  let keys := intRange 0 (maxStep + 1)
  ⟨keys, keys.map (fun s => if m s = [] then 0 else listMean (m s))⟩

/-- `aggregate_open_race_histories` (`process_results.py` lines 79–111, and
the aggregation half of `process_official_results.collect_open_race_histories`
lines 188–218): per optimizer, skip an empty run list, otherwise build
`step_to_values` over all runs and read out the mean trajectory. -/
def aggregateRuns (entries : List (String × List Run)) :
    Except String (List (String × Traj)) :=
  entries.foldlM
    (fun acc e =>
      if e.2.isEmpty then Except.ok acc
      else do
        let M := maxStepOf e.2
        let m ← e.2.foldlM (processRun M) (fun _ => ([] : List ℚ))
        Except.ok (acc ++ [(e.1, aggValues M m)]))
    []

/-- `collect_open_race_histories` of `process_official_results.py`
(lines 144–218): shape detection, early return on no competitions, per-trial
normalization, then aggregation. -/
def collect_open_race_histories (d : OpenRaceDoc) :
    Except String (List (String × Traj)) :=
  if (pickCompetitions d).isEmpty then Except.ok []
  else aggregateRuns (collectRuns d)

/-! ### Hide-the-Label documents and statistics -/

/-- Per-optimizer result of a Hide-the-Label competition: only
`steps_to_target` is read. -/
structure HLOptResult where
  steps_to_target : Option ℚ
deriving DecidableEq, Repr

structure HLCompetition where
  optimizer_results : List (String × HLOptResult)
deriving DecidableEq, Repr

/-- A tournament: its `competitions` list (`.get("competitions", [])`). -/
structure HLTournament where
  competitions : List HLCompetition
deriving DecidableEq, Repr

/-- Pre-aggregated per-optimizer statistics of an "analysis" item: only
`mean_steps` is read. -/
structure OptStats where
  mean_steps : Option ℚ
deriving DecidableEq, Repr

structure ItemData where
  optimizer_stats : List (String × OptStats)
deriving DecidableEq, Repr

/-- One entry of the `items` list of a pre-aggregated "analysis" document;
`item.get("data", {})`. -/
structure AnalysisItem where
  data : Option ItemData
deriving DecidableEq, Repr

/-- The value under a top-level `tournament_results` key: either a list of
tournaments or a single tournament object. -/
inductive HLTourVal
  | list (ts : List HLTournament)
  | single (t : HLTournament)
deriving DecidableEq, Repr

/-- The value under `data["results"]` for Hide-the-Label documents. -/
structure HLResults where
  all_tournament_results : Option (List HLTournament)
  tournament_results : Option (List HLTournament)
deriving DecidableEq, Repr

/-- A Hide-the-Label result document, with every key probed by
`collect_hide_label_stats` (`process_official_results.py` lines 57–127). -/
structure HideLabelDoc where
  type : Option String
  items : Option (List AnalysisItem)
  all_tournament_results : Option (List HLTournament)
  results : Option HLResults
  tournament_results : Option HLTourVal
  competitions : Option (List HLCompetition)
deriving DecidableEq, Repr

/-- The bare-document fallback: the document itself treated as the sole
tournament (`tournaments = [data]`). -/
def docAsTournament (d : HideLabelDoc) : HLTournament :=
  ⟨d.competitions.getD []⟩

/-- The final `else` branch (lines 111–118): `tournaments =
data.get("tournament_results", [])`, replaced by `[data]` when falsy and
wrapped in a list when it is a single object. -/
def elseTournaments (d : HideLabelDoc) : List HLTournament :=
  match d.tournament_results with
  | none => [docAsTournament d]
  | some (HLTourVal.list ts) => if ts.isEmpty then [docAsTournament d] else ts
  | some (HLTourVal.single t) => [t]

/-- The `(name, steps_to_target)` pairs visited by the nested
tournament/competition/optimizer loops, in iteration order. -/
def hlTournamentPairs (ts : List HLTournament) : List (String × Option ℚ) :=
  ts.flatMap fun t => t.competitions.flatMap fun c =>
    c.optimizer_results.map fun p => (p.1, p.2.steps_to_target)

/-- The `(name, mean_steps)` pairs visited by the "analysis" branch. -/
def analysisPairs (items : List AnalysisItem) : List (String × Option ℚ) :=
  items.flatMap fun it =>
    ((it.data.getD ⟨[]⟩).optimizer_stats).map fun p => (p.1, p.2.mean_steps)

/-- Shape detection of `collect_hide_label_stats` (lines 61–127), as the
ordered chain of branch guards of the source, each branch yielding the
`(name, value)` pairs its loops visit. -/
def hlPairs (d : HideLabelDoc) : List (String × Option ℚ) :=
  if d.type = some "analysis" ∧ d.items.isSome then
    analysisPairs (d.items.getD [])
  else if d.all_tournament_results.isSome then
    hlTournamentPairs (d.all_tournament_results.getD [])
  else if (d.results.bind HLResults.all_tournament_results).isSome then
    hlTournamentPairs ((d.results.bind HLResults.all_tournament_results).getD [])
  else if (d.results.bind HLResults.tournament_results).isSome then
    hlTournamentPairs ((d.results.bind HLResults.tournament_results).getD [])
  else hlTournamentPairs (elseTournaments d)

/-- `steps_by_opt`: pool the visited values per optimizer, appending only
when the value is present (`if steps is not None`). -/
def hlStepsByOpt (d : HideLabelDoc) : List (String × List ℚ) :=
  (hlPairs d).foldl
    (fun acc p =>
      match p.2 with
      | some v => alAppend acc p.1 v
      | none => acc) []

/-- `np.min` over a nonempty list. -/
def listMin : List ℚ → ℚ
  | [] => 0
  | x :: xs => xs.foldl min x

/-- `np.max` over a nonempty list. -/
def listMax : List ℚ → ℚ
  | [] => 0
  | x :: xs => xs.foldl max x

/-- Ascending sort of the samples, for the median. -/
def sortQ (xs : List ℚ) : List ℚ := List.insertionSort (· ≤ ·) xs

/-- `np.median` / `statistics.median`: middle element of the sorted samples
for odd counts, midpoint of the two middle elements for even counts. -/
def median (xs : List ℚ) : ℚ :=
  let s := sortQ xs
  let n := xs.length
  if n % 2 = 1 then s.getD (n / 2) 0
  else (s.getD (n / 2 - 1) 0 + s.getD (n / 2) 0) / 2

/-- One per-optimizer summary (`process_official_results.py` lines 133–139). -/
structure Summary where
  mean_steps : ℚ
  median_steps : ℚ
  min_steps : ℚ
  max_steps : ℚ
  count : ℕ
deriving DecidableEq, Repr

def mkSummary (xs : List ℚ) : Summary :=
  ⟨listMean xs, median xs, listMin xs, listMax xs, xs.length⟩

/-- `collect_hide_label_stats` (`process_official_results.py` lines 57–141):
pool the steps per optimizer over the detected shape, then emit a summary
for every optimizer whose pooled list is nonempty (`if steps:`). -/
def collect_hide_label_stats (d : HideLabelDoc) : List (String × Summary) :=
  (hlStepsByOpt d).foldl
    (fun acc p => if p.2.isEmpty then acc else acc ++ [(p.1, mkSummary p.2)]) []

/-! ### The `generate_data.py` Open Race variant -/

/-- A history entry as read by `generate_data.process_open_race_file`: only
`best_value_so_far` is read. -/
structure GDRecord where
  best_value_so_far : Option ℚ
deriving DecidableEq, Repr

structure GDOptResult where
  optimization_history : List GDRecord
deriving DecidableEq, Repr

structure GDCompetition where
  optimizer_results : List (String × GDOptResult)
deriving DecidableEq, Repr

/-- An Open Race document as read by `generate_data.py`:
`data.get('competitions', [])`. -/
structure GDDoc where
  competitions : List GDCompetition
deriving DecidableEq, Repr

/-- Output of `process_open_race_file` for one optimizer. -/
structure GDTraj where
  steps : List ℕ
  values : List ℚ
  final_best : Option ℚ
deriving DecidableEq, Repr

/-- `optimizer_histories[opt_name].append(history)` over all competitions
(appended even when the history is empty). -/
def gdHistories (d : GDDoc) : List (String × List (List GDRecord)) :=
  d.competitions.foldl
    (fun acc comp =>
      comp.optimizer_results.foldl
        (fun acc2 p => alAppend acc2 p.1 p.2.optimization_history) acc) []

/-- `max(len(h) for h in histories)` over a nonempty collection. -/
def gdMaxSteps (hs : List (List GDRecord)) : ℕ :=
  match hs.map List.length with
  | [] => 0
  | x :: xs => xs.foldl max x

/-- `process_open_race_file` (`generate_data.py` lines 110–158): per step
index, average `best_value_so_far` over the competitions long enough to
reach it, appending the step only when some value was found. -/
def process_open_race_file (d : GDDoc) : List (String × GDTraj) :=
  (gdHistories d).foldl
    (fun acc p =>
      match p.2 with
      | [] => acc
      | hs =>
        let idxPairs := (List.range (gdMaxSteps hs)).filterMap (fun i =>
          let vs := hs.filterMap (fun h =>
            if i < h.length then (h.getD i ⟨none⟩).best_value_so_far else none)
          if vs.isEmpty then none else some (i, listMean vs))
        acc ++ [(p.1, ⟨idxPairs.map Prod.fst, idxPairs.map Prod.snd,
                       (idxPairs.map Prod.snd).getLast?⟩)])
    []

/-- Modelled from the spec: the "first non-null wins" field selection that
§4.1 of the design describes for the history-value lookup, used to compare
the described behaviour with the implemented `pyOr`. -/
def firstNonNull (a b : Option ℚ) : Option ℚ :=
  match a with
  | some _ => a
  | none => b

/-! ## Helper lemmas -/

instance {ε α : Type} [DecidableEq ε] [DecidableEq α] : DecidableEq (Except ε α) :=
  fun a b =>
    match a, b with
    | Except.ok x, Except.ok y =>
        if h : x = y then isTrue (congrArg Except.ok h)
        else isFalse (fun hc => h (Except.ok.inj hc))
    | Except.ok _, Except.error _ => isFalse (fun hc => Except.noConfusion hc)
    | Except.error _, Except.ok _ => isFalse (fun hc => Except.noConfusion hc)
    | Except.error e, Except.error f =>
        if h : e = f then isTrue (congrArg Except.error h)
        else isFalse (fun hc => h (Except.error.inj hc))

theorem exceptBind_ok {ε α β : Type} (a : α) (f : α → Except ε β) :
    (Except.ok a : Except ε α) >>= f = f a := rfl

theorem ite_lt_eq_max (x prev : ℚ) : (if x < prev then prev else x) = max prev x := by
  rcases lt_or_le x prev with h | h
  · rw [if_pos h, max_eq_left h.le]
  · rw [if_neg (not_lt.mpr h), max_eq_right h]

theorem repairFrom_length (prev : ℚ) (vs : List ℚ) :
    (repairFrom prev vs).length = vs.length := by
  induction vs generalizing prev with
  | nil => rfl
  | cons x xs ih => simp [repairFrom, ih]

theorem repairVals_length (vs : List ℚ) : (repairVals vs).length = vs.length := by
  cases vs with
  | nil => rfl
  | cons x xs => simp [repairVals, repairFrom_length]

theorem repairFrom_getD (prev : ℚ) (vs : List ℚ) (i : ℕ) (hi : i < vs.length) :
    (repairFrom prev vs).getD i 0 = (vs.take (i + 1)).foldl max prev := by
  induction vs generalizing prev i with
  | nil => simp at hi
  | cons x xs ih =>
    cases i with
    | zero =>
      simp [repairFrom, ite_lt_eq_max]
    | succ n =>
      have hn : n < xs.length := Nat.lt_of_succ_lt_succ hi
      simp only [repairFrom, List.getD_cons_succ, List.take_succ_cons, List.foldl_cons]
      rw [ih _ _ hn, ite_lt_eq_max]

theorem repairVals_getD (vs : List ℚ) (i : ℕ) (hi : i < vs.length) :
    (repairVals vs).getD i 0 = (vs.take (i + 1)).foldl max (vs.headD 0) := by
  cases vs with
  | nil => simp at hi
  | cons x xs =>
    cases i with
    | zero => simp [repairVals]
    | succ n =>
      have hn : n < xs.length := Nat.lt_of_succ_lt_succ hi
      simp only [repairVals, List.getD_cons_succ, List.headD_cons, List.take_succ_cons,
        List.foldl_cons, max_self]
      rw [repairFrom_getD _ _ _ hn]

/-! ## C4: sort by step, then running maximum -/

/-- C4: for every trial's history, the per-trial normalizer of
`collect_open_race_histories` first sorts the extracted `(step, value)`
pairs by step ascending and then replaces each value with the running
maximum of the sorted values so far: the produced steps are the sorted
steps, they are sorted ascending, and the `i`-th produced value is the
maximum of the first `i + 1` sorted values. -/
theorem c4_sort_then_running_max (recs : List HistRecord) (run : Run)
    (h : processHistory recs = some run) :
    run.steps = (sortPairs (recs.filterMap extractRecord)).map Prod.fst ∧
    List.Sorted (· ≤ ·) run.steps ∧
    run.values.length = run.steps.length ∧
    ∀ i, i < run.values.length →
      run.values.getD i 0 =
        ((((sortPairs (recs.filterMap extractRecord)).map Prod.snd).take (i + 1)).foldl max
          (((sortPairs (recs.filterMap extractRecord)).map Prod.snd).headD 0)) := by
  unfold processHistory at h
  by_cases hp : (recs.filterMap extractRecord).isEmpty
  · simp [hp] at h
  · simp only [hp, Bool.false_eq_true, if_false, Option.some.injEq] at h
    subst h
    refine ⟨rfl, ?_, ?_, ?_⟩
    · exact (List.sorted_insertionSort stepLE _).map _ (fun _ _ hab => hab)
    · simp [repairVals_length]
    · intro i hi
      have hi' : i < ((sortPairs (recs.filterMap extractRecord)).map Prod.snd).length := by
        simpa [repairVals_length] using hi
      exact repairVals_getD _ _ hi'

def c4recs : List HistRecord :=
  [⟨some 0, some 5, none⟩, ⟨some 1, some 3, none⟩, ⟨some 2, some 7, none⟩]

/-- Witness for C4 at the spec's concrete example: raw history
`[(0, 5.0), (1, 3.0), (2, 7.0)]` is repaired to values `[5.0, 5.0, 7.0]`,
and the value at index 1 is the running maximum of the first two sorted
values. -/
theorem c4_witness :
    processHistory c4recs = some ⟨[0, 1, 2], [5, 5, 7]⟩ ∧
    (⟨[0, 1, 2], [5, 5, 7]⟩ : Run).values.getD 1 0 =
      ((((sortPairs (c4recs.filterMap extractRecord)).map Prod.snd).take 2).foldl max
        (((sortPairs (c4recs.filterMap extractRecord)).map Prod.snd).headD 0)) :=
  ⟨by decide, (c4_sort_then_running_max c4recs _ (by decide)).2.2.2 1 (by decide)⟩

/-! ## C5: value selection uses Python truthiness, not "first non-null" -/

/-- Counterexample to C5: the code selects the history value with Python
`or` (truthiness), not "first non-null wins".  A record whose
`best_value_so_far` is `0` (non-null) and whose `current_best` is `7`
yields the value `7`, while the first non-null field holds `0`; and a
record with a non-null `best_value_so_far` of `0` and no `current_best` is
skipped entirely. -/
theorem c5_counterexample :
    extractRecord ⟨some 0, some 0, some 7⟩ = some (0, 7) ∧
    firstNonNull (some 0) (some 7) = some 0 ∧ (7 : ℚ) ≠ 0 ∧
    extractRecord ⟨some 0, some 0, none⟩ = none ∧
    firstNonNull (some 0) none = some 0 := by
  refine ⟨by decide, by decide, by decide, by decide, by decide⟩

/-- C5 (amended): the value used for a step is `best_value_so_far` when it
is non-null and non-zero; when `best_value_so_far` is null or `0.0` the
value falls back to `current_best` (even when that is null, skipping the
record); a record with a null step is always skipped. -/
theorem c5_truthy_selection :
    (∀ (r : HistRecord) (s : Int) (v : ℚ), r.step = some s →
       r.best_value_so_far = some v → v ≠ 0 → extractRecord r = some (s, v)) ∧
    (∀ (r : HistRecord) (s : Int), r.step = some s →
       (r.best_value_so_far = none ∨ r.best_value_so_far = some 0) →
       extractRecord r = r.current_best.map (fun v => (s, v))) ∧
    (∀ r : HistRecord, r.step = none → extractRecord r = none) := by
  refine ⟨?_, ?_, ?_⟩
  · rintro ⟨st, a, b⟩ s v hs ha hv
    cases hs; cases ha
    simp [extractRecord, pyOr, hv]
  · rintro ⟨st, a, b⟩ s hs hab
    cases hs
    rcases hab with h0 | h0 <;> cases h0 <;> cases b <;> simp [extractRecord, pyOr]
  · rintro ⟨st, a, b⟩ hs
    cases hs
    simp [extractRecord]

/-- Witness for C5 (amended): a record with `best_value_so_far = 0.0` and
no `current_best` is skipped. -/
theorem c5_witness :
    extractRecord ⟨some 0, some 0, none⟩ =
      (none : Option ℚ).map (fun v => ((0 : Int), v)) :=
  c5_truthy_selection.2.1 ⟨some 0, some 0, none⟩ 0 rfl (Or.inr rfl)

/-! ## C9: the pre-aggregated "analysis" branch has priority -/

/-- C9: shape detection in `collect_hide_label_stats` checks the
pre-aggregated "analysis" marker first, so a document carrying it is
handled by that branch no matter which wrapper keys it also contains; and
a pre-aggregated document whose single item carries
`optimizer_stats["RANDOM"].mean_steps = 10.0` yields the summary
`mean_steps = 10, median = 10, min = 10, max = 10, count = 1`. -/
theorem c9_analysis_priority :
    (∀ (items : List AnalysisItem) (atr : Option (List HLTournament))
       (res : Option HLResults) (tr : Option HLTourVal)
       (comps : Option (List HLCompetition)),
       collect_hide_label_stats ⟨some "analysis", some items, atr, res, tr, comps⟩ =
         collect_hide_label_stats ⟨some "analysis", some items, none, none, none, none⟩) ∧
    collect_hide_label_stats
        ⟨some "analysis", some [⟨some ⟨[("RANDOM", ⟨some 10⟩)]⟩⟩], none, none, none, none⟩ =
      [("RANDOM", ⟨10, 10, 10, 10, 1⟩)] := by
  constructor
  · intro items atr res tr comps
    simp [collect_hide_label_stats, hlStepsByOpt, hlPairs]
  · norm_num [collect_hide_label_stats, hlStepsByOpt, hlPairs, analysisPairs, alAppend,
      mkSummary, listMean, listMin, listMax, median, sortQ, List.insertionSort,
      List.orderedInsert, Summary.mk.injEq]

/-! ## Concrete counterexample documents -/

def c1doc : OpenRaceDoc :=
  { results := none
  , competitions := some
      [ ⟨[("X", ⟨[⟨some 0, some 10, none⟩]⟩)]⟩
      , ⟨[("X", ⟨[⟨some 1, some 1, none⟩]⟩)]⟩ ]
  , tournament_results := none }

/-- Counterexample to C1: two trials, both non-empty, both with sorted
monotone histories (one observed only at step 0 with value 10, one only at
step 1 with value 1).  The aggregated trajectory emitted for optimizer `X`
is `values = [10, 11/2]`, which is strictly decreasing, so the output
`values` sequence of the trajectory aggregator is not non-decreasing. -/
theorem c1_counterexample :
    collect_open_race_histories c1doc =
      Except.ok [("X", ⟨[0, 1], [10, 11/2]⟩)] ∧
    ¬ List.Chain' (· ≤ ·) [(10 : ℚ), 11/2] := by
  constructor
  · norm_num [collect_open_race_histories, pickCompetitions, c1doc, collectRuns,
      processHistory, extractRecord, pyOr, sortPairs, List.insertionSort,
      List.orderedInsert, aggregateRuns, processRun, stvAppend, maxStepOf, lastStepD,
      intRange, aggValues, listMean, alAppend, repairVals, repairFrom, List.foldlM,
      List.range, List.range.loop, Traj.mk.injEq, List.filterMap, exceptBind_ok,
      List.cons_ne_nil]
  · simp only [List.chain'_cons, List.chain'_singleton, and_true]
    norm_num

/-- Counterexample to C2: a trial observed only at steps `{0, 3}` with
values `{2.0, 5.0}` contributes nothing at steps 1 and 2 (the code only
forward-fills past the trial's last observed step, it does not fill gaps
between observations), contrary to the claim that it contributes `2.0`
there.  With `max_step = 4 ≥ 3`, the per-step sample lists produced from
that single trial are `([2], [], [], [5], [5])`. -/
theorem c2_counterexample :
    (processRun 4 (fun _ => []) ⟨[0, 3], [2, 5]⟩).map
        (fun m => (m 0, m 1, m 2, m 3, m 4)) =
      Except.ok ([(2 : ℚ)], [], [], [5], [5]) ∧
    ([] : List ℚ) ≠ [2] :=
  ⟨by decide, by decide⟩

def c3doc : GDDoc := ⟨[⟨[("X", ⟨[⟨none⟩, ⟨some 1⟩]⟩)]⟩]⟩

/-- Counterexample to C3: the `generate_data.py` trajectory variant
(`process_open_race_file`, one of the claim's cited code paths) omits steps
with zero contributing values instead of assigning them value 0: a single
trial whose history has no value at index 0 and value 1 at index 1 yields
`steps = [1]`, not the dense `[0, 1]` the claim requires. -/
theorem c3_counterexample :
    process_open_race_file c3doc = [("X", ⟨[1], [1], some 1⟩)] ∧
    ([1] : List ℕ) ≠ [0, 1] := by
  constructor
  · simp +decide [process_open_race_file, gdHistories, gdMaxSteps, alAppend, c3doc,
      listMean, List.range, List.range.loop, List.filterMap, GDTraj.mk.injEq]
  · decide

def c8doc : OpenRaceDoc :=
  { results := none
  , competitions := some [⟨[("X", ⟨[⟨some (-1), some 5, none⟩]⟩)]⟩]
  , tournament_results := none }

/-- Counterexample to C8: normalization and aggregation do not return
normally for every structured document.  A history record with the
(structurally valid) step `-1` survives extraction, and the aggregation
loop then indexes `step_to_values[-1]`, a key outside
`range(max_step + 1)` — a Python `KeyError`. -/
theorem c8_counterexample :
    collect_open_race_histories c8doc = Except.error "KeyError" := by
  decide

/-! ## Statistics lemmas (C6, C7) -/

theorem foldl_min_le_init {α : Type} [LinearOrder α] (l : List α) (a : α) :
    l.foldl min a ≤ a := by
  induction l generalizing a with
  | nil => exact le_refl a
  | cons x xs ih => exact le_trans (ih (min a x)) (min_le_left a x)

theorem foldl_min_le_mem {α : Type} [LinearOrder α] {l : List α} {x : α}
    (hx : x ∈ l) (a : α) : l.foldl min a ≤ x := by
  induction l generalizing a with
  | nil => simp at hx
  | cons y ys ih =>
    rcases List.mem_cons.mp hx with rfl | hmem
    · exact le_trans (foldl_min_le_init ys (min a x)) (min_le_right a x)
    · exact ih hmem (min a y)

theorem init_le_foldl_max {α : Type} [LinearOrder α] (l : List α) (a : α) :
    a ≤ l.foldl max a := by
  induction l generalizing a with
  | nil => exact le_refl a
  | cons x xs ih => exact le_trans (le_max_left a x) (ih (max a x))

theorem mem_le_foldl_max {α : Type} [LinearOrder α] {l : List α} {x : α}
    (hx : x ∈ l) (a : α) : x ≤ l.foldl max a := by
  induction l generalizing a with
  | nil => simp at hx
  | cons y ys ih =>
    rcases List.mem_cons.mp hx with rfl | hmem
    · exact le_trans (le_max_right a x) (init_le_foldl_max ys (max a x))
    · exact ih hmem (max a y)

theorem listMin_le_mem {xs : List ℚ} {x : ℚ} (hx : x ∈ xs) : listMin xs ≤ x := by
  cases xs with
  | nil => simp at hx
  | cons y ys =>
    rcases List.mem_cons.mp hx with rfl | hmem
    · exact foldl_min_le_init ys x
    · exact foldl_min_le_mem hmem y

theorem mem_le_listMax {xs : List ℚ} {x : ℚ} (hx : x ∈ xs) : x ≤ listMax xs := by
  cases xs with
  | nil => simp at hx
  | cons y ys =>
    rcases List.mem_cons.mp hx with rfl | hmem
    · exact init_le_foldl_max ys x
    · exact mem_le_foldl_max hmem y

theorem sortQ_getD_mem {xs : List ℚ} {k : ℕ} (hk : k < xs.length) :
    (sortQ xs).getD k 0 ∈ xs := by
  have hperm := List.perm_insertionSort (α := ℚ) (· ≤ ·) xs
  have hlen : (sortQ xs).length = xs.length := hperm.length_eq
  have hmem : (sortQ xs).getD k 0 ∈ sortQ xs := by
    rw [List.getD_eq_getElem _ _ (by rw [hlen]; exact hk)]
    exact List.getElem_mem _
  exact hperm.mem_iff.mp hmem

theorem median_bounds {xs : List ℚ} (h : xs ≠ []) :
    listMin xs ≤ median xs ∧ median xs ≤ listMax xs := by
  have hpos : 0 < xs.length := List.length_pos.mpr h
  have hmed : median xs =
      if xs.length % 2 = 1 then (sortQ xs).getD (xs.length / 2) 0
      else ((sortQ xs).getD (xs.length / 2 - 1) 0 + (sortQ xs).getD (xs.length / 2) 0) / 2 :=
    rfl
  have hk2 : xs.length / 2 < xs.length := Nat.div_lt_self hpos one_lt_two
  have hk1 : xs.length / 2 - 1 < xs.length := lt_of_le_of_lt (Nat.sub_le _ _) hk2
  rw [hmed]
  split_ifs with hodd
  · exact ⟨listMin_le_mem (sortQ_getD_mem hk2), mem_le_listMax (sortQ_getD_mem hk2)⟩
  · have ha1 := listMin_le_mem (sortQ_getD_mem hk1)
    have ha2 := listMin_le_mem (sortQ_getD_mem hk2)
    have hb1 := mem_le_listMax (sortQ_getD_mem hk1)
    have hb2 := mem_le_listMax (sortQ_getD_mem hk2)
    constructor <;> linarith

theorem mem_statsFoldAux (l : List (String × List ℚ)) (acc : List (String × Summary))
    (x : String × Summary)
    (hx : x ∈ l.foldl
      (fun acc p => if p.2.isEmpty then acc else acc ++ [(p.1, mkSummary p.2)]) acc) :
    x ∈ acc ∨ ∃ p ∈ l, p.2 ≠ [] ∧ x = (p.1, mkSummary p.2) := by
  induction l generalizing acc with
  | nil => exact Or.inl hx
  | cons p l ih =>
    rcases ih _ hx with h | ⟨q, hq, hqe, hxe⟩
    · replace h : x ∈ (if p.2.isEmpty then acc else acc ++ [(p.1, mkSummary p.2)]) := h
      by_cases hp : p.2.isEmpty
      · rw [if_pos hp] at h
        exact Or.inl h
      · rw [if_neg hp] at h
        rcases List.mem_append.mp h with h | h
        · exact Or.inl h
        · refine Or.inr ⟨p, List.mem_cons_self _ _, ?_, List.mem_singleton.mp h⟩
          simpa [List.isEmpty_iff] using hp
    · exact Or.inr ⟨q, List.mem_cons_of_mem _ hq, hqe, hxe⟩

/-! ## C6: summary statistics invariants -/

/-- C6: every summary emitted by `collect_hide_label_stats` satisfies
`min_steps ≤ median_steps ≤ max_steps`, and its `count` equals the number
of pooled contributing values (the summary being `mkSummary` of the
nonempty pooled value list of that optimizer). -/
theorem c6_summary_bounds (d : HideLabelDoc) (name : String) (s : Summary)
    (h : (name, s) ∈ collect_hide_label_stats d) :
    s.min_steps ≤ s.median_steps ∧ s.median_steps ≤ s.max_steps ∧
    ∃ xs : List ℚ, xs ≠ [] ∧ (name, xs) ∈ hlStepsByOpt d ∧
      s = mkSummary xs ∧ s.count = xs.length := by
  rcases mem_statsFoldAux _ _ _ h with h0 | ⟨p, hp, hpe, hx⟩
  · simp at h0
  · obtain ⟨hname, hs⟩ := Prod.mk.injEq .. ▸ hx
    have hb := median_bounds hpe
    subst hs
    refine ⟨hb.1, hb.2, p.2, hpe, ?_, rfl, rfl⟩
    rw [hname]
    exact hp

def c6doc : HideLabelDoc :=
  ⟨none, none, some [⟨[⟨[("A", ⟨some 3⟩)]⟩, ⟨[("A", ⟨some 1⟩)]⟩]⟩], none, none, none⟩

/-- Witness for C6: optimizer `A` pools the values `[3, 1]` over two
competitions, and its emitted summary satisfies the median bounds. -/
theorem c6_witness :
    ("A", mkSummary [(3 : ℚ), 1]) ∈ collect_hide_label_stats c6doc ∧
    (mkSummary [(3 : ℚ), 1]).min_steps ≤ (mkSummary [(3 : ℚ), 1]).median_steps ∧
    (mkSummary [(3 : ℚ), 1]).median_steps ≤ (mkSummary [(3 : ℚ), 1]).max_steps := by
  have hm : ("A", mkSummary [(3 : ℚ), 1]) ∈ collect_hide_label_stats c6doc := by
    simp +decide [collect_hide_label_stats, hlStepsByOpt, hlPairs, hlTournamentPairs,
      alAppend, c6doc]
  exact ⟨hm, (c6_summary_bounds c6doc "A" _ hm).1, (c6_summary_bounds c6doc "A" _ hm).2.1⟩

/-! ## C7: optimizers with no contributing values are omitted -/

theorem alAppend_keys {α : Type} (l : List (String × List α)) (k k' : String) (x : α) :
    k' ∈ (alAppend l k x).map Prod.fst ↔ k' ∈ l.map Prod.fst ∨ k' = k := by
  induction l with
  | nil => simp [alAppend]
  | cons p l ih =>
    obtain ⟨p1, xs⟩ := p
    simp only [alAppend]
    split_ifs with hp
    · subst hp
      simp only [List.map_cons, List.mem_cons]
      tauto
    · simp only [List.map_cons, List.mem_cons, ih]
      tauto

/-- C7: an optimizer all of whose visited records lack a `steps_to_target`
value (for the "analysis" branch: lack `mean_steps`) never appears as a key
of the summary mapping produced by `collect_hide_label_stats`. -/
theorem c7_all_absent_omitted (d : HideLabelDoc) (name : String)
    (h : ∀ p ∈ hlPairs d, p.1 = name → p.2 = none) :
    name ∉ (collect_hide_label_stats d).map Prod.fst := by
  have key : ∀ (l : List (String × Option ℚ)) (acc : List (String × List ℚ)),
      (∀ p ∈ l, p.1 = name → p.2 = none) → name ∉ acc.map Prod.fst →
      name ∉ (l.foldl
        (fun acc p => match p.2 with
          | some v => alAppend acc p.1 v
          | none => acc) acc).map Prod.fst := by
    intro l
    induction l with
    | nil => intro acc _ hacc; exact hacc
    | cons p l ih =>
      intro acc hl hacc
      cases hv : p.2 with
      | none =>
        simp only [List.foldl_cons, hv]
        exact ih acc (fun q hq => hl q (List.mem_cons_of_mem _ hq)) hacc
      | some v =>
        simp only [List.foldl_cons, hv]
        refine ih _ (fun q hq => hl q (List.mem_cons_of_mem _ hq)) ?_
        intro hmem
        rcases (alAppend_keys acc p.1 name v).mp hmem with hin | heq
        · exact hacc hin
        · have := hl p (List.mem_cons_self _ _) heq.symm
          rw [this] at hv
          exact Option.noConfusion hv
  have h1 : name ∉ (hlStepsByOpt d).map Prod.fst := key _ [] h (by simp)
  intro hmem
  obtain ⟨pr, hpr, hfst⟩ := List.mem_map.mp hmem
  rcases mem_statsFoldAux _ _ _ hpr with h0 | ⟨q, hq, _, hxe⟩
  · simp at h0
  · refine h1 (List.mem_map.mpr ⟨q, hq, ?_⟩)
    rw [hxe] at hfst
    simpa using hfst

def c7doc : HideLabelDoc :=
  ⟨none, none, some [⟨[⟨[("B", ⟨none⟩)]⟩]⟩], none, none, none⟩

/-- Witness for C7: optimizer `B` appears in the input records but with no
`steps_to_target` value, and is absent from the output summary mapping. -/
theorem c7_witness : "B" ∉ (collect_hide_label_stats c7doc).map Prod.fst :=
  c7_all_absent_omitted c7doc "B" (by decide)

/-! ## Characterization of the aggregation loop (C1, C2, C3, C8, C10) -/

/-- The samples one run appends into `step_to_values[s]`: its observed
values at exactly step `s` (in history order), followed by the
forward-filled last value when `s` lies strictly beyond the run's last step
and within the key range. -/
def runContrib (maxStep s : Int) (r : Run) : List ℚ :=
  (((r.steps.zip r.values).filter (fun p => p.1 = s)).map Prod.snd) ++
    (if r.steps ≠ [] ∧ lastStepD r < s ∧ s ≤ maxStep then [r.values.getLastD 0] else [])

theorem intRange_mem {a b t : Int} : t ∈ intRange a b ↔ a ≤ t ∧ t < b := by
  constructor
  · intro h
    obtain ⟨i, hi, rfl⟩ := List.mem_map.mp h
    rw [List.mem_range] at hi
    omega
  · rintro ⟨h1, h2⟩
    exact List.mem_map.mpr
      ⟨(t - a).toNat, List.mem_range.mpr (by omega), by omega⟩

theorem intRange_nodup (a b : Int) : (intRange a b).Nodup :=
  List.Nodup.map (fun i j h => by simpa using h) (List.nodup_range _)

theorem intRange_length (a b : Int) : (intRange a b).length = (b - a).toNat := by
  unfold intRange
  rw [List.length_map, List.length_range]

theorem intRange_getD (a b : Int) (i : ℕ) (hi : i < (b - a).toNat) :
    (intRange a b).getD i 0 = a + i := by
  rw [List.getD_eq_getElem _ _ (by rw [intRange_length]; exact hi)]
  unfold intRange
  rw [List.getElem_map, List.getElem_range]

theorem zipFold_char (maxStep : Int) (pairs : List (Int × ℚ)) (m : STV)
    (h : ∀ p ∈ pairs, 0 ≤ p.1 ∧ p.1 ≤ maxStep) :
    pairs.foldlM (fun acc p => stvAppend maxStep acc p.1 p.2) m =
      Except.ok (fun t => m t ++ (pairs.filter (fun p => p.1 = t)).map Prod.snd) := by
  induction pairs generalizing m with
  | nil => exact congrArg Except.ok (funext fun t => by simp)
  | cons p rest ih =>
    have hp := h p (List.mem_cons_self _ _)
    have hap : stvAppend maxStep m p.1 p.2 =
        Except.ok (fun t => if t = p.1 then m p.1 ++ [p.2] else m t) := by
      unfold stvAppend
      rw [if_pos hp]
    rw [List.foldlM_cons, hap, exceptBind_ok,
      ih _ (fun q hq => h q (List.mem_cons_of_mem _ hq))]
    refine congrArg Except.ok (funext fun t => ?_)
    show (if t = p.1 then m p.1 ++ [p.2] else m t) ++ _ = _
    by_cases ht : t = p.1
    · subst ht
      rw [if_pos rfl, List.filter_cons, if_pos (by simp), List.map_cons,
        List.append_assoc]
      rfl
    · rw [if_neg ht, List.filter_cons,
        if_neg (by simp only [decide_eq_true_eq]; exact fun hc => ht hc.symm)]

theorem fillFold_char (maxStep : Int) (ks : List Int) (v : ℚ) (m : STV)
    (h : ∀ k ∈ ks, 0 ≤ k ∧ k ≤ maxStep) (hnd : ks.Nodup) :
    ks.foldlM (fun acc s => stvAppend maxStep acc s v) m =
      Except.ok (fun t => m t ++ if t ∈ ks then [v] else []) := by
  induction ks generalizing m with
  | nil => exact congrArg Except.ok (funext fun t => by simp)
  | cons k ks ih =>
    have hk := h k (List.mem_cons_self _ _)
    have hap : stvAppend maxStep m k v =
        Except.ok (fun t => if t = k then m k ++ [v] else m t) := by
      unfold stvAppend
      rw [if_pos hk]
    rw [List.foldlM_cons, hap, exceptBind_ok,
      ih _ (fun q hq => h q (List.mem_cons_of_mem _ hq)) (List.nodup_cons.mp hnd).2]
    refine congrArg Except.ok (funext fun t => ?_)
    by_cases ht : t = k
    · subst ht
      have hnin : t ∉ ks := (List.nodup_cons.mp hnd).1
      simp [hnin, List.mem_cons]
    · simp [ht, List.mem_cons]

theorem lastStepD_mem {r : Run} (h : r.steps ≠ []) : lastStepD r ∈ r.steps := by
  unfold lastStepD
  rw [List.getLastD_eq_getLast?, List.getLast?_eq_getLast_of_ne_nil h, Option.getD_some]
  exact List.getLast_mem h

theorem processRun_char (maxStep : Int) (m : STV) (r : Run)
    (hnev : r.steps ≠ [] → r.values ≠ [])
    (hrange : ∀ s ∈ r.steps, 0 ≤ s ∧ s ≤ maxStep) :
    processRun maxStep m r = Except.ok (fun t => m t ++ runContrib maxStep t r) := by
  have hzip : ∀ p ∈ r.steps.zip r.values, 0 ≤ p.1 ∧ p.1 ≤ maxStep := by
    rintro ⟨a, b⟩ hp
    exact hrange a (List.of_mem_zip hp).1
  unfold processRun
  rw [zipFold_char _ _ _ hzip, exceptBind_ok]
  by_cases hs : r.steps.isEmpty
  · rw [if_pos hs]
    have hsteps : r.steps = [] := List.isEmpty_iff.mp hs
    refine congrArg Except.ok (funext fun t => ?_)
    simp [runContrib, hsteps]
  · rw [if_neg hs]
    have hsteps : r.steps ≠ [] := by simpa [List.isEmpty_iff] using hs
    have hvne : r.values ≠ [] := hnev hsteps
    rw [if_neg (by simpa [List.isEmpty_iff] using hvne)]
    have hlow : 0 ≤ lastStepD r := (hrange _ (lastStepD_mem hsteps)).1
    have hks : ∀ k ∈ intRange (lastStepD r + 1) (maxStep + 1), 0 ≤ k ∧ k ≤ maxStep := by
      intro k hk
      have := intRange_mem.mp hk
      omega
    rw [fillFold_char _ _ _ _ hks (intRange_nodup _ _)]
    refine congrArg Except.ok (funext fun t => ?_)
    rw [runContrib, List.append_assoc]
    congr 1
    congr 1
    by_cases hc : lastStepD r < t ∧ t ≤ maxStep
    · rw [if_pos (intRange_mem.mpr (by omega)), if_pos ⟨hsteps, hc.1, hc.2⟩]
    · rw [if_neg (fun hm => hc (by have := intRange_mem.mp hm; omega)),
        if_neg (fun hm => hc ⟨hm.2.1, hm.2.2⟩)]

theorem buildRuns_char (maxStep : Int) (runs : List Run) (m : STV)
    (h : ∀ r ∈ runs, (r.steps ≠ [] → r.values ≠ []) ∧
         ∀ s ∈ r.steps, 0 ≤ s ∧ s ≤ maxStep) :
    runs.foldlM (processRun maxStep) m =
      Except.ok (fun t => m t ++ runs.flatMap (fun r => runContrib maxStep t r)) := by
  induction runs generalizing m with
  | nil => exact congrArg Except.ok (funext fun t => by simp)
  | cons r rest ih =>
    obtain ⟨h1, h2⟩ := h r (List.mem_cons_self _ _)
    rw [List.foldlM_cons, processRun_char _ _ _ h1 h2, exceptBind_ok,
      ih _ (fun q hq => h q (List.mem_cons_of_mem _ hq))]
    exact congrArg Except.ok
      (funext fun t => by simp [List.flatMap_cons, List.append_assoc])

/-- The closed form of one optimizer's aggregated trajectory: per key in
`[0 .. max_step]`, the mean of the pooled per-run contributions, or `0`
when no run contributes. -/
def trajOf (runs : List Run) : Traj :=
  aggValues (maxStepOf runs) (fun t => runs.flatMap (fun r => runContrib (maxStepOf runs) t r))

theorem aggregateRuns_char (entries : List (String × List Run))
    (h : ∀ e ∈ entries, ∀ r ∈ e.2, (r.steps ≠ [] → r.values ≠ []) ∧
         ∀ s ∈ r.steps, 0 ≤ s ∧ s ≤ maxStepOf e.2) :
    aggregateRuns entries =
      Except.ok (entries.filterMap
        (fun e => if e.2.isEmpty then none else some (e.1, trajOf e.2))) := by
  suffices key : ∀ (l : List (String × List Run)) (acc : List (String × Traj)),
      (∀ e ∈ l, ∀ r ∈ e.2, (r.steps ≠ [] → r.values ≠ []) ∧
        ∀ s ∈ r.steps, 0 ≤ s ∧ s ≤ maxStepOf e.2) →
      l.foldlM
        (fun acc e =>
          if e.2.isEmpty then Except.ok acc
          else do
            let M := maxStepOf e.2
            let m ← e.2.foldlM (processRun M) (fun _ => ([] : List ℚ))
            Except.ok (acc ++ [(e.1, aggValues M m)]))
        acc =
      Except.ok (acc ++ l.filterMap
        (fun e => if e.2.isEmpty then none else some (e.1, trajOf e.2))) by
    have := key entries [] h
    simpa [aggregateRuns] using this
  intro l
  induction l with
  | nil =>
    intro acc _
    rw [List.foldlM_nil, List.filterMap_nil, List.append_nil]
    rfl
  | cons e l ih =>
    intro acc hl
    rw [List.foldlM_cons]
    by_cases he : e.2.isEmpty
    · rw [if_pos he, exceptBind_ok, ih acc (fun q hq => hl q (List.mem_cons_of_mem _ hq)),
        List.filterMap_cons]
      rw [if_pos he]
    · have hruns := hl e (List.mem_cons_self _ _)
      have hbuild := buildRuns_char (maxStepOf e.2) e.2 (fun _ => ([] : List ℚ)) hruns
      have hstep :
          (if e.2.isEmpty then Except.ok acc
           else do
             let M := maxStepOf e.2
             let m ← e.2.foldlM (processRun M) (fun _ => ([] : List ℚ))
             Except.ok (acc ++ [(e.1, aggValues M m)])) =
          Except.ok (acc ++ [(e.1, trajOf e.2)]) := by
        rw [if_neg he]
        show (e.2.foldlM (processRun (maxStepOf e.2)) (fun _ => ([] : List ℚ)) >>=
          fun m => Except.ok (acc ++ [(e.1, aggValues (maxStepOf e.2) m)])) = _
        rw [hbuild, exceptBind_ok]
        rfl
      rw [hstep, exceptBind_ok, ih _ (fun q hq => hl q (List.mem_cons_of_mem _ hq)),
        List.filterMap_cons]
      rw [if_neg he, List.append_assoc]
      rfl

theorem filter_fst_eq_of_nodup (l : List (Int × ℚ)) (hnd : (l.map Prod.fst).Nodup)
    (s : Int) (v : ℚ) (hm : (s, v) ∈ l) :
    l.filter (fun p => p.1 = s) = [(s, v)] := by
  induction l with
  | nil => simp at hm
  | cons q l ih =>
    rw [List.map_cons, List.nodup_cons] at hnd
    rcases List.mem_cons.mp hm with rfl | hmem
    · rw [List.filter_cons, if_pos (by simp)]
      have : l.filter (fun p => p.1 = s) = [] := by
        rw [List.filter_eq_nil_iff]
        intro p hp
        simp only [decide_eq_true_eq]
        intro hps
        exact hnd.1 (hps ▸ List.mem_map.mpr ⟨p, hp, rfl⟩)
      rw [this]
    · have hq : ¬(q.1 = s) := fun hqs =>
        hnd.1 (hqs ▸ List.mem_map.mpr ⟨(s, v), hmem, rfl⟩)
      rw [List.filter_cons, if_neg (by simpa using hq)]
      exact ih hnd.2 hmem

theorem sorted_le_getLastD {l : List Int} (hs : List.Sorted (· ≤ ·) l) {x : Int}
    (hx : x ∈ l) : x ≤ l.getLastD 0 := by
  have hne : l ≠ [] := List.ne_nil_of_mem hx
  rw [List.getLastD_eq_getLast?, List.getLast?_eq_getLast_of_ne_nil hne, Option.getD_some]
  obtain ⟨i, rfl⟩ := List.mem_iff_get.mp hx
  rw [List.getLast_eq_get]
  exact hs.rel_get_of_le (by
    have := i.2
    exact Fin.mk_le_mk.mpr (by omega))

/-! ## C2: per-trial contribution semantics (amended) -/

/-- C2 (amended): for a trial with sorted distinct steps, processed against
key range `0 .. max_step`, the trial contributes its observed value at each
of its observed steps, forward-fills its last observed value at every step
strictly beyond its last observed step (up to `max_step`), and contributes
nothing at an unobserved step at or before its last observed step — in
particular gaps between observations are NOT filled. -/
theorem c2_contribution_semantics (maxStep : Int) (m : STV) (r : Run)
    (hlen : r.steps.length = r.values.length)
    (hne : r.steps ≠ [])
    (hsort : List.Sorted (· < ·) r.steps)
    (hrange : ∀ s ∈ r.steps, 0 ≤ s ∧ s ≤ maxStep) :
    processRun maxStep m r = Except.ok (fun t => m t ++ runContrib maxStep t r) ∧
    (∀ i (hi : i < r.steps.length),
       runContrib maxStep (r.steps.get ⟨i, hi⟩) r =
         [r.values.get ⟨i, by rw [← hlen]; exact hi⟩]) ∧
    (∀ s, s ∉ r.steps → lastStepD r < s → s ≤ maxStep →
       runContrib maxStep s r = [r.values.getLastD 0]) ∧
    (∀ s, s ∉ r.steps → s ≤ lastStepD r → runContrib maxStep s r = []) := by
  have hnev : r.steps ≠ [] → r.values ≠ [] := by
    intro _
    intro hv
    rw [hv] at hlen
    exact hne (List.length_eq_zero.mp hlen)
  have hnd : r.steps.Nodup := List.Pairwise.imp (fun h => ne_of_lt h) hsort
  have hmapfst : (r.steps.zip r.values).map Prod.fst = r.steps :=
    List.map_fst_zip _ _ (le_of_eq hlen)
  refine ⟨processRun_char _ _ _ hnev hrange, ?_, ?_, ?_⟩
  · intro i hi
    have hi' : i < r.values.length := hlen ▸ hi
    have hziplen : i < (r.steps.zip r.values).length := by
      rw [List.length_zip]
      omega
    have hpair : (r.steps.get ⟨i, hi⟩, r.values.get ⟨i, hi'⟩) ∈ r.steps.zip r.values := by
      have hg : (r.steps.zip r.values).get ⟨i, hziplen⟩ =
          (r.steps.get ⟨i, hi⟩, r.values.get ⟨i, hi'⟩) := by
        simp [List.get_eq_getElem, List.getElem_zip]
      exact hg ▸ List.get_mem _ _ _
    rw [runContrib, filter_fst_eq_of_nodup _ (by rw [hmapfst]; exact hnd) _ _ hpair]
    have hle : r.steps.get ⟨i, hi⟩ ≤ lastStepD r :=
      sorted_le_getLastD (hsort.le_of_lt) (List.get_mem _ _ _)
    rw [if_neg (fun hc => absurd hle (not_le.mpr hc.2.1))]
    rfl
  · intro s hns hlast hsmax
    rw [runContrib, if_pos ⟨hne, hlast, hsmax⟩]
    have hfil : (r.steps.zip r.values).filter (fun p => p.1 = s) = [] := by
      rw [List.filter_eq_nil_iff]
      intro p hp
      simp only [decide_eq_true_eq]
      intro hps
      exact hns (hps ▸ (List.of_mem_zip hp).1)
    rw [hfil]
    rfl
  · intro s hns hle
    rw [runContrib, if_neg (fun hc => absurd hle (not_le.mpr hc.2.1))]
    have hfil : (r.steps.zip r.values).filter (fun p => p.1 = s) = [] := by
      rw [List.filter_eq_nil_iff]
      intro p hp
      simp only [decide_eq_true_eq]
      intro hps
      exact hns (hps ▸ (List.of_mem_zip hp).1)
    rw [hfil]
    rfl

/-- Witness for C2 (amended): the trial observed only at steps `{0, 3}`
with values `{2, 5}`, under `max_step = 4`, contributes `2` at step 0,
nothing at step 1, and `5` at step 4. -/
theorem c2_witness :
    runContrib 4 0 ⟨[0, 3], [2, 5]⟩ = [2] ∧
    runContrib 4 1 ⟨[0, 3], [2, 5]⟩ = [] ∧
    runContrib 4 4 ⟨[0, 3], [2, 5]⟩ = [5] := by
  have h := c2_contribution_semantics 4 (fun _ => []) ⟨[0, 3], [2, 5]⟩
    (by decide) (by decide) (by decide) (by decide)
  exact ⟨h.2.1 0 (by decide), h.2.2.2 1 (by decide) (by decide),
    h.2.2.1 4 (by decide) (by decide) (by decide)⟩

/-! ## C10: duplicate step indices contribute twice -/

/-- C10: when a trial's zipped history contains two observations at the
same step `s` (values `v1` and `v2`), both are appended to step `s`'s
sample list — the trial contributes (at least) two samples to the
cross-trial mean at that step. -/
theorem c10_duplicate_step (maxStep : Int) (m : STV) (r : Run) (s : Int)
    (hnev : r.steps ≠ [] → r.values ≠ [])
    (hrange : ∀ t ∈ r.steps, 0 ≤ t ∧ t ≤ maxStep)
    (pre mid post : List (Int × ℚ)) (v1 v2 : ℚ)
    (hzip : r.steps.zip r.values = pre ++ (s, v1) :: mid ++ (s, v2) :: post) :
    processRun maxStep m r = Except.ok (fun t => m t ++ runContrib maxStep t r) ∧
    v1 ∈ runContrib maxStep s r ∧ v2 ∈ runContrib maxStep s r ∧
    2 ≤ (runContrib maxStep s r).length := by
  have hv1 : (s, v1) ∈ (r.steps.zip r.values).filter (fun p => p.1 = s) := by
    rw [hzip]
    refine List.mem_filter.mpr ⟨?_, by simp⟩
    simp
  have hv2 : (s, v2) ∈ (r.steps.zip r.values).filter (fun p => p.1 = s) := by
    rw [hzip]
    refine List.mem_filter.mpr ⟨?_, by simp⟩
    simp
  have hlen : 2 ≤ ((r.steps.zip r.values).filter (fun p => p.1 = s)).length := by
    rw [hzip, List.filter_append, List.filter_cons, if_pos (by simp),
      List.filter_append, List.filter_cons, if_pos (by simp)]
    simp only [List.length_append, List.length_cons]
    omega
  refine ⟨processRun_char _ _ _ hnev hrange, ?_, ?_, ?_⟩
  · rw [runContrib]
    exact List.mem_append_left _ (List.mem_map.mpr ⟨(s, v1), hv1, rfl⟩)
  · rw [runContrib]
    exact List.mem_append_left _ (List.mem_map.mpr ⟨(s, v2), hv2, rfl⟩)
  · rw [runContrib, List.length_append, List.length_map]
    omega

/-- Witness for C10: a trial with history steps `[0, 0, 1]` and values
`[1, 3, 5]` contributes both `1` and `3` (two samples) at step 0. -/
theorem c10_witness :
    (1 : ℚ) ∈ runContrib 1 0 ⟨[0, 0, 1], [1, 3, 5]⟩ ∧
    (3 : ℚ) ∈ runContrib 1 0 ⟨[0, 0, 1], [1, 3, 5]⟩ ∧
    2 ≤ (runContrib 1 0 ⟨[0, 0, 1], [1, 3, 5]⟩).length := by
  have h := c10_duplicate_step 1 (fun _ => []) ⟨[0, 0, 1], [1, 3, 5]⟩ 0
    (by decide) (by decide) [] [] [(1, 5)] 1 3 (by decide)
  exact ⟨h.2.1, h.2.2.1, h.2.2.2⟩

/-! ## C3 (amended): density of the `aggregate_open_race_histories` output -/

theorem lastStepD_le_maxStepOf {runs : List Run} {r : Run} (hr : r ∈ runs) :
    lastStepD r ≤ maxStepOf runs := by
  cases runs with
  | nil => simp at hr
  | cons q qs =>
    show lastStepD r ≤ (qs.map lastStepD).foldl max (lastStepD q)
    rcases List.mem_cons.mp hr with rfl | hmem
    · exact init_le_foldl_max _ _
    · exact mem_le_foldl_max (List.mem_map.mpr ⟨r, hmem, rfl⟩) _

/-- C3 (amended, scoped to the `aggregate_open_race_histories` aggregator of
`process_results.py` / `process_official_results.py`; the `generate_data.py`
variant omits zero-contributor steps instead): for valid per-optimizer run
lists, the aggregator emits, per optimizer with a nonempty run list, the
trajectory whose `steps` are exactly `[0, 1, ..., max_step]` with
`len(steps) = len(values) = max_step + 1` (zero-contributor steps receiving
the value 0 inside `trajOf`), an optimizer with an empty run list is
skipped, and an optimizer all of whose competition histories yield no valid
records never enters the collected run mapping at all. -/
theorem c3_dense_trajectory :
    (∀ (entries : List (String × List Run)),
      (∀ e ∈ entries, ∀ r ∈ e.2, r.steps ≠ [] ∧ r.steps.length = r.values.length ∧
        List.Sorted (· ≤ ·) r.steps ∧ ∀ s ∈ r.steps, 0 ≤ s) →
      aggregateRuns entries = Except.ok (entries.filterMap
        (fun e => if e.2.isEmpty then none else some (e.1, trajOf e.2)))) ∧
    (∀ runs : List Run,
      (trajOf runs).steps = intRange 0 (maxStepOf runs + 1) ∧
      (trajOf runs).steps.length = (trajOf runs).values.length ∧
      (trajOf runs).values.length = (maxStepOf runs + 1).toNat) ∧
    (∀ (d : OpenRaceDoc) (name : String),
      (∀ c ∈ pickCompetitions d, ∀ p ∈ c.optimizer_results,
        p.1 = name → processHistory p.2.optimization_history = none) →
      name ∉ (collectRuns d).map Prod.fst) := by
  refine ⟨?_, ?_, ?_⟩
  · intro entries h
    apply aggregateRuns_char
    intro e he r hr
    obtain ⟨h1, h2, h3, h4⟩ := h e he r hr
    refine ⟨fun _ hv => absurd (by rw [hv] at h2; exact List.length_eq_zero.mp h2) h1, ?_⟩
    intro s hs
    exact ⟨h4 s hs, le_trans (sorted_le_getLastD h3 hs) (lastStepD_le_maxStepOf hr)⟩
  · intro runs
    refine ⟨rfl, ?_, ?_⟩
    · show (intRange 0 (maxStepOf runs + 1)).length =
        ((intRange 0 (maxStepOf runs + 1)).map _).length
      rw [List.length_map]
    · show ((intRange 0 (maxStepOf runs + 1)).map _).length = _
      rw [List.length_map, intRange_length]
      omega
  · intro d name hnone
    have inner : ∀ (ps : List (String × OptResult)) (acc : List (String × List Run)),
        (∀ p ∈ ps, p.1 = name → processHistory p.2.optimization_history = none) →
        name ∉ acc.map Prod.fst →
        name ∉ (ps.foldl (fun acc2 p =>
          match processHistory p.2.optimization_history with
          | some run => alAppend acc2 p.1 run
          | none => acc2) acc).map Prod.fst := by
      intro ps
      induction ps with
      | nil => intro acc _ hacc; exact hacc
      | cons p ps ih =>
        intro acc hps hacc
        rw [List.foldl_cons]
        cases hru : processHistory p.2.optimization_history with
        | none => exact ih acc (fun q hq => hps q (List.mem_cons_of_mem _ hq)) hacc
        | some run =>
          refine ih _ (fun q hq => hps q (List.mem_cons_of_mem _ hq)) ?_
          intro hmem
          rcases (alAppend_keys acc p.1 name run).mp hmem with hin | heq
          · exact hacc hin
          · have := hps p (List.mem_cons_self _ _) heq.symm
            rw [this] at hru
            exact Option.noConfusion hru
    have outer : ∀ (cs : List Competition) (acc : List (String × List Run)),
        (∀ c ∈ cs, ∀ p ∈ c.optimizer_results,
          p.1 = name → processHistory p.2.optimization_history = none) →
        name ∉ acc.map Prod.fst →
        name ∉ (cs.foldl (fun acc comp =>
          comp.optimizer_results.foldl (fun acc2 p =>
            match processHistory p.2.optimization_history with
            | some run => alAppend acc2 p.1 run
            | none => acc2) acc) acc).map Prod.fst := by
      intro cs
      induction cs with
      | nil => intro acc _ hacc; exact hacc
      | cons c cs ih =>
        intro acc hcs hacc
        rw [List.foldl_cons]
        exact ih _ (fun c' hc' => hcs c' (List.mem_cons_of_mem _ hc'))
          (inner c.optimizer_results acc (hcs c (List.mem_cons_self _ _)) hacc)
    exact outer (pickCompetitions d) [] hnone (by simp)

/-- Witness for C3 (amended): a single optimizer with one sorted run over
steps `[0, 2]` aggregates successfully, and its trajectory's steps are the
dense range `[0 .. max_step]`. -/
theorem c3_witness :
    aggregateRuns [("A", [⟨[0, 2], [1, 2]⟩])] =
      Except.ok [("A", trajOf [⟨[0, 2], [1, 2]⟩])] ∧
    (trajOf [(⟨[0, 2], [1, 2]⟩ : Run)]).steps =
      intRange 0 (maxStepOf [⟨[0, 2], [1, 2]⟩] + 1) := by
  refine ⟨?_, (c3_dense_trajectory.2.1 [⟨[0, 2], [1, 2]⟩]).1⟩
  have h := c3_dense_trajectory.1 [("A", [⟨[0, 2], [1, 2]⟩])] (by decide)
  simpa using h

/-! ## C8 (amended): totality given non-negative steps -/

theorem extractRecord_step {rec : HistRecord} {p : Int × ℚ}
    (h : extractRecord rec = some p) : rec.step = some p.1 := by
  unfold extractRecord at h
  cases hs : rec.step with
  | none => rw [hs] at h; exact Option.noConfusion h
  | some s =>
    rw [hs] at h
    cases hv : pyOr rec.best_value_so_far rec.current_best with
    | none => rw [hv] at h; exact Option.noConfusion h
    | some v =>
      rw [hv] at h
      cases h
      rfl

theorem processHistory_props (recs : List HistRecord) (run : Run)
    (h : processHistory recs = some run) :
    run.steps ≠ [] ∧ run.values ≠ [] ∧ run.steps.length = run.values.length ∧
    List.Sorted (· ≤ ·) run.steps ∧
    ∀ s ∈ run.steps, ∃ rec ∈ recs, rec.step = some s := by
  unfold processHistory at h
  by_cases hp : (recs.filterMap extractRecord).isEmpty
  · simp [hp] at h
  · simp only [hp, Bool.false_eq_true, if_false, Option.some.injEq] at h
    subst h
    have hperm := List.perm_insertionSort stepLE (recs.filterMap extractRecord)
    have hplen : (sortPairs (recs.filterMap extractRecord)).length =
        (recs.filterMap extractRecord).length := hperm.length_eq
    have hpne : recs.filterMap extractRecord ≠ [] := by
      simpa [List.isEmpty_iff] using hp
    have hsne : sortPairs (recs.filterMap extractRecord) ≠ [] := by
      intro hcon
      apply hpne
      rw [← List.length_eq_zero, ← hplen, hcon]
      rfl
    refine ⟨by simpa using hsne, ?_, ?_, ?_, ?_⟩
    · show repairVals _ ≠ []
      intro hcon
      apply hsne
      rw [← List.length_eq_zero, ← List.length_map _ Prod.snd,
        ← repairVals_length ((sortPairs (recs.filterMap extractRecord)).map Prod.snd), hcon]
      rfl
    · show (List.map _ _).length = (repairVals _).length
      rw [List.length_map, repairVals_length, List.length_map]
    · exact (List.sorted_insertionSort stepLE _).map _ (fun _ _ hab => hab)
    · intro s hs
      obtain ⟨pr, hpr, hfst⟩ := List.mem_map.mp hs
      have hpmem : pr ∈ recs.filterMap extractRecord := hperm.mem_iff.mp hpr
      obtain ⟨rec, hrec, hext⟩ := List.mem_filterMap.mp hpmem
      exact ⟨rec, hrec, hfst ▸ extractRecord_step hext⟩

theorem alAppend_all {α : Type} {P : α → Prop} {l : List (String × List α)}
    {k : String} {x : α}
    (hl : ∀ e ∈ l, ∀ y ∈ e.2, P y) (hx : P x) :
    ∀ e ∈ alAppend l k x, ∀ y ∈ e.2, P y := by
  induction l with
  | nil =>
    intro e he y hy
    simp only [alAppend, List.mem_singleton] at he
    subst he
    rcases List.mem_singleton.mp hy with rfl
    exact hx
  | cons q l ih =>
    intro e he y hy
    obtain ⟨q1, qs⟩ := q
    simp only [alAppend] at he
    split_ifs at he with hq
    · rcases List.mem_cons.mp he with rfl | hmem
      · rcases List.mem_append.mp hy with hy1 | hy1
        · exact hl (q1, qs) (List.mem_cons_self _ _) y hy1
        · rcases List.mem_singleton.mp hy1 with rfl
          exact hx
      · exact hl e (List.mem_cons_of_mem _ hmem) y hy
    · rcases List.mem_cons.mp he with rfl | hmem
      · exact hl (q1, qs) (List.mem_cons_self _ _) y hy
      · exact ih (fun e' he' => hl e' (List.mem_cons_of_mem _ he')) e hmem y hy

theorem collectRuns_all (d : OpenRaceDoc) (P : Run → Prop)
    (hP : ∀ c ∈ pickCompetitions d, ∀ p ∈ c.optimizer_results, ∀ run,
      processHistory p.2.optimization_history = some run → P run) :
    ∀ e ∈ collectRuns d, ∀ r ∈ e.2, P r := by
  have inner : ∀ (ps : List (String × OptResult)),
      (∀ p ∈ ps, ∀ run, processHistory p.2.optimization_history = some run → P run) →
      ∀ (acc : List (String × List Run)), (∀ e ∈ acc, ∀ r ∈ e.2, P r) →
      ∀ e ∈ ps.foldl (fun acc2 p =>
        match processHistory p.2.optimization_history with
        | some run => alAppend acc2 p.1 run
        | none => acc2) acc, ∀ r ∈ e.2, P r := by
    intro ps
    induction ps with
    | nil => intro _ acc hacc; exact hacc
    | cons p ps ihp =>
      intro hps acc hacc
      rw [List.foldl_cons]
      apply ihp (fun q hq => hps q (List.mem_cons_of_mem _ hq))
      cases hru : processHistory p.2.optimization_history with
      | none => exact hacc
      | some run => exact alAppend_all hacc (hps p (List.mem_cons_self _ _) run hru)
  have outer : ∀ (cs : List Competition),
      (∀ c ∈ cs, ∀ p ∈ c.optimizer_results, ∀ run,
        processHistory p.2.optimization_history = some run → P run) →
      ∀ (acc : List (String × List Run)), (∀ e ∈ acc, ∀ r ∈ e.2, P r) →
      ∀ e ∈ cs.foldl (fun acc comp =>
        comp.optimizer_results.foldl (fun acc2 p =>
          match processHistory p.2.optimization_history with
          | some run => alAppend acc2 p.1 run
          | none => acc2) acc) acc, ∀ r ∈ e.2, P r := by
    intro cs
    induction cs with
    | nil => intro _ acc hacc; exact hacc
    | cons c cs ih =>
      intro hcs acc hacc
      rw [List.foldl_cons]
      exact ih (fun c' hc' => hcs c' (List.mem_cons_of_mem _ hc')) _
        (inner c.optimizer_results (hcs c (List.mem_cons_self _ _)) acc hacc)
  exact outer (pickCompetitions d) hP [] (by simp)

/-- C8 (amended): a document with no recognizable competitions yields the
empty mapping, and normalization plus aggregation return normally (no
`KeyError`/`IndexError`) on every document whose history records carry only
non-negative step indices; with a negative step the aggregation raises
(see the counterexample). -/
theorem c8_no_raise_nonneg (d : OpenRaceDoc)
    (h : ∀ c ∈ pickCompetitions d, ∀ p ∈ c.optimizer_results,
      ∀ rec ∈ p.2.optimization_history, ∀ s : Int, rec.step = some s → 0 ≤ s) :
    (∃ out, collect_open_race_histories d = Except.ok out) ∧
    (pickCompetitions d = [] → collect_open_race_histories d = Except.ok []) := by
  constructor
  · unfold collect_open_race_histories
    by_cases hc : (pickCompetitions d).isEmpty
    · rw [if_pos hc]
      exact ⟨[], rfl⟩
    · rw [if_neg hc]
      have hprops : ∀ e ∈ collectRuns d, ∀ r ∈ e.2,
          r.steps ≠ [] ∧ r.values ≠ [] ∧ List.Sorted (· ≤ ·) r.steps ∧
          ∀ s ∈ r.steps, 0 ≤ s := by
        apply collectRuns_all
        intro c hcm p hp run hrun
        have hpr := processHistory_props _ _ hrun
        refine ⟨hpr.1, hpr.2.1, hpr.2.2.2.1, ?_⟩
        intro s hs
        obtain ⟨rec, hrec, hstep⟩ := hpr.2.2.2.2 s hs
        exact h c hcm p hp rec hrec s hstep
      refine ⟨_, aggregateRuns_char _ ?_⟩
      intro e he r hr
      obtain ⟨h1, h2, h3, h4⟩ := hprops e he r hr
      refine ⟨fun _ => h2, fun s hs => ⟨h4 s hs, ?_⟩⟩
      exact le_trans (sorted_le_getLastD h3 hs) (lastStepD_le_maxStepOf hr)
  · intro hc
    unfold collect_open_race_histories
    rw [if_pos (by simp [hc])]

def c8wdoc : OpenRaceDoc :=
  { results := none
  , competitions := some [⟨[("Y", ⟨[⟨some 0, some 2, none⟩]⟩)]⟩]
  , tournament_results := none }

/-- Witness for C8 (amended): a document whose history steps are
non-negative is processed without raising. -/
theorem c8_witness : ∃ out, collect_open_race_histories c8wdoc = Except.ok out :=
  (c8_no_raise_nonneg c8wdoc (by decide)).1

/-! ## C1 (amended): monotone aggregate for contiguous trials -/

theorem getLastD_eq_getD {α : Type} (l : List α) (hne : l ≠ []) (d : α) :
    l.getLastD d = l.getD (l.length - 1) d := by
  have hpos : 0 < l.length := List.length_pos.mpr hne
  rw [List.getLastD_eq_getLast?, List.getLast?_eq_getLast_of_ne_nil hne, Option.getD_some,
    List.getLast_eq_getElem, List.getD_eq_getElem _ _ (by omega)]

theorem contiguous_lastStepD {r : Run}
    (hsteps : r.steps = intRange 0 (r.values.length : ℤ)) (hvne : r.values ≠ []) :
    lastStepD r = (r.values.length : ℤ) - 1 := by
  have hnpos : 0 < r.values.length := List.length_pos.mpr hvne
  have hrne : intRange 0 (r.values.length : ℤ) ≠ [] := by
    rw [← List.length_pos, intRange_length]
    omega
  unfold lastStepD
  rw [hsteps, getLastD_eq_getD _ hrne, intRange_length,
    intRange_getD _ _ _ (by omega)]
  omega

/-- The value a contiguous trial contributes at step `s ≥ 0`: its observed
value when `s` is within its recorded range, its last value beyond. -/
def cval (r : Run) (s : Int) : ℚ :=
  if s < (r.values.length : ℤ) then r.values.getD s.toNat 0 else r.values.getLastD 0

theorem runContrib_contiguous (M : Int) (r : Run) (s : Int)
    (hsteps : r.steps = intRange 0 (r.values.length : ℤ))
    (hvne : r.values ≠ [])
    (_hlastM : lastStepD r ≤ M)
    (hs0 : 0 ≤ s) (hsM : s ≤ M) :
    runContrib M s r = [cval r s] := by
  have hnpos : 0 < r.values.length := List.length_pos.mpr hvne
  have hlen : r.steps.length = r.values.length := by
    rw [hsteps, intRange_length]
    omega
  have hsne : r.steps ≠ [] := by
    rw [← List.length_pos, hlen]
    exact hnpos
  have hlast : lastStepD r = (r.values.length : ℤ) - 1 := contiguous_lastStepD hsteps hvne
  rw [runContrib]
  by_cases hcase : s < (r.values.length : ℤ)
  · have hsnat : s.toNat < r.values.length := by omega
    have hndfst : ((r.steps.zip r.values).map Prod.fst).Nodup := by
      rw [List.map_fst_zip _ _ (le_of_eq hlen), hsteps]
      exact intRange_nodup _ _
    have hziplen : (r.steps.zip r.values).length = r.values.length := by
      rw [List.length_zip, hlen]
      omega
    have hstepd : r.steps.getD s.toNat 0 = s := by
      rw [hsteps, intRange_getD _ _ _ (by omega)]
      omega
    have hpair : (s, r.values.getD s.toNat 0) ∈ r.steps.zip r.values := by
      have hb : s.toNat < (r.steps.zip r.values).length := by omega
      have hgz : (r.steps.zip r.values).get ⟨s.toNat, hb⟩ =
          (s, r.values.getD s.toNat 0) := by
        rw [List.get_eq_getElem, List.getElem_zip]
        rw [← List.getD_eq_getElem r.steps 0 (by omega),
          ← List.getD_eq_getElem r.values 0 (by omega), hstepd]
      exact hgz ▸ List.get_mem _ _ _
    rw [filter_fst_eq_of_nodup _ hndfst _ _ hpair,
      if_neg (fun hc => by rw [hlast] at hc; omega), cval, if_pos hcase]
    rfl
  · have hfil : (r.steps.zip r.values).filter (fun p => p.1 = s) = [] := by
      rw [List.filter_eq_nil_iff]
      intro p hp
      simp only [decide_eq_true_eq]
      intro hps
      have hmem : p.1 ∈ r.steps := (List.of_mem_zip hp).1
      rw [hsteps] at hmem
      have := intRange_mem.mp hmem
      omega
    rw [hfil, if_pos ⟨hsne, by rw [hlast]; omega, hsM⟩, cval, if_neg hcase]
    rfl

theorem cval_mono (r : Run) (hchain : List.Chain' (· ≤ ·) r.values)
    (hvne : r.values ≠ []) {s : Int} (hs : 0 ≤ s) : cval r s ≤ cval r (s + 1) := by
  have hpw : List.Pairwise (· ≤ ·) r.values := List.chain'_iff_pairwise.mp hchain
  have hnpos : 0 < r.values.length := List.length_pos.mpr hvne
  have hgetlast : r.values.getLastD 0 = r.values.getD (r.values.length - 1) 0 :=
    getLastD_eq_getD _ hvne _
  by_cases h1 : s + 1 < (r.values.length : ℤ)
  · rw [cval, cval, if_pos (by omega), if_pos h1]
    have he : (s + 1).toNat = s.toNat + 1 := by omega
    rw [he, List.getD_eq_getElem _ _ (by omega), List.getD_eq_getElem _ _ (by omega)]
    exact List.pairwise_iff_getElem.mp hpw _ _ _ _ (by omega)
  · by_cases h0 : s < (r.values.length : ℤ)
    · rw [cval, cval, if_pos h0, if_neg h1, hgetlast]
      have he : s.toNat = r.values.length - 1 := by omega
      rw [he]
    · rw [cval, cval, if_neg h0, if_neg h1]

theorem flatMap_eq_map_of {α β : Type} (l : List α) (f : α → List β) (g : α → β)
    (h : ∀ x ∈ l, f x = [g x]) : l.flatMap f = l.map g := by
  induction l with
  | nil => rfl
  | cons x xs ih =>
    rw [List.flatMap_cons, List.map_cons, h x (List.mem_cons_self _ _),
      ih (fun y hy => h y (List.mem_cons_of_mem _ hy))]
    rfl

theorem trajOf_chain (runs : List Run) (hne : runs ≠ [])
    (h : ∀ r ∈ runs, r.values ≠ [] ∧ r.steps = intRange 0 (r.values.length : ℤ) ∧
      List.Chain' (· ≤ ·) r.values) :
    List.Chain' (· ≤ ·) (trajOf runs).values := by
  have hlastr : ∀ r ∈ runs, lastStepD r ≤ maxStepOf runs :=
    fun r hr => lastStepD_le_maxStepOf hr
  have hM0 : 0 ≤ maxStepOf runs := by
    obtain ⟨r0, hr0⟩ : ∃ r, r ∈ runs := by
      cases runs with
      | nil => exact absurd rfl hne
      | cons a l => exact ⟨a, List.mem_cons_self _ _⟩
    obtain ⟨hv, hst, _⟩ := h r0 hr0
    have hl := contiguous_lastStepD hst hv
    have h2 := hlastr r0 hr0
    have h3 : 0 < r0.values.length := List.length_pos.mpr hv
    omega
  have hpool : ∀ s : Int, 0 ≤ s → s ≤ maxStepOf runs →
      runs.flatMap (fun r => runContrib (maxStepOf runs) s r) =
        runs.map (fun r => cval r s) := by
    intro s h0 hsM
    apply flatMap_eq_map_of
    intro r hr
    obtain ⟨hv, hst, _⟩ := h r hr
    exact runContrib_contiguous _ r s hst hv (hlastr r hr) h0 hsM
  have key : ∀ s : Int, 0 ≤ s → s + 1 ≤ maxStepOf runs →
      (if runs.flatMap (fun r => runContrib (maxStepOf runs) s r) = [] then 0
        else listMean (runs.flatMap (fun r => runContrib (maxStepOf runs) s r))) ≤
      (if runs.flatMap (fun r => runContrib (maxStepOf runs) (s + 1) r) = [] then 0
        else listMean (runs.flatMap (fun r => runContrib (maxStepOf runs) (s + 1) r))) := by
    intro s h0 h1M
    rw [hpool s h0 (by omega), hpool (s + 1) (by omega) h1M]
    have hmapne : ∀ t : Int, runs.map (fun r => cval r t) ≠ [] := by
      intro t hcon
      exact hne (List.map_eq_nil_iff.mp hcon)
    rw [if_neg (hmapne s), if_neg (hmapne (s + 1))]
    unfold listMean
    rw [List.length_map, List.length_map]
    have hsum : (runs.map (fun r => cval r s)).sum ≤
        (runs.map (fun r => cval r (s + 1))).sum :=
      List.sum_le_sum (fun r hr => cval_mono r (h r hr).2.2 (h r hr).1 h0)
    have hlpos : (0 : ℚ) < (runs.length : ℚ) := by
      have := List.length_pos.mpr hne
      exact_mod_cast this
    exact (div_le_div_iff_of_pos_right hlpos).mpr hsum
  show List.Chain' (· ≤ ·) ((intRange 0 (maxStepOf runs + 1)).map fun s =>
    if runs.flatMap (fun r => runContrib (maxStepOf runs) s r) = [] then 0
    else listMean (runs.flatMap (fun r => runContrib (maxStepOf runs) s r)))
  rw [List.chain'_map]
  unfold intRange
  rw [List.chain'_map]
  obtain ⟨N, hN⟩ : ∃ N, (maxStepOf runs + 1 - 0).toNat = N + 1 :=
    ⟨(maxStepOf runs).toNat, by omega⟩
  rw [hN]
  refine (List.chain'_range_succ _ N).mpr ?_
  intro i hi
  have hcast : ∀ j : ℕ, (0 : ℤ) + (j : ℤ) = (j : ℤ) := fun j => by omega
  show _ ≤ _
  have hkey := key (i : ℤ) (by omega) (by omega)
  have e1 : (i : ℤ) + 1 = (0 : ℤ) + ((i + 1 : ℕ) : ℤ) := by push_cast; omega
  have e0 : (i : ℤ) = (0 : ℤ) + (i : ℤ) := by omega
  rw [e1, e0] at hkey
  exact hkey

/-- C1 (amended): the claim fails in general (see the counterexample); the
aggregated `values` sequence is non-decreasing provided every contributing
trial's history covers the contiguous steps `0 .. len - 1` (no late start
and no gaps) with non-decreasing values — as the monotonicity repair
guarantees for the values, but not for the step coverage. -/
theorem c1_values_monotone (entries : List (String × List Run))
    (h : ∀ e ∈ entries, ∀ r ∈ e.2, r.values ≠ [] ∧
      r.steps = intRange 0 (r.values.length : ℤ) ∧ List.Chain' (· ≤ ·) r.values) :
    ∃ out, aggregateRuns entries = Except.ok out ∧
      ∀ pr ∈ out, List.Chain' (· ≤ ·) (Prod.snd pr).values := by
  have hchar := aggregateRuns_char entries (fun e he r hr => by
    obtain ⟨hv, hst, _⟩ := h e he r hr
    refine ⟨fun _ => hv, ?_⟩
    intro s hs
    have hmem := intRange_mem.mp (hst ▸ hs)
    have hlast := contiguous_lastStepD hst hv
    have hle := lastStepD_le_maxStepOf hr
    exact ⟨by omega, by omega⟩)
  refine ⟨_, hchar, ?_⟩
  intro pr hpr
  obtain ⟨e, he, hpe⟩ := List.mem_filterMap.mp hpr
  by_cases hemp : e.2.isEmpty
  · rw [if_pos hemp] at hpe
    exact Option.noConfusion hpe
  · rw [if_neg hemp] at hpe
    have hene : e.2 ≠ [] := by simpa [List.isEmpty_iff] using hemp
    have hpr2 : pr = (e.1, trajOf e.2) := (Option.some.inj hpe).symm
    rw [hpr2]
    exact trajOf_chain e.2 hene (fun r hr => h e he r hr)

/-- Witness for C1 (amended): one optimizer with a single trial covering
steps `[0, 1]` with non-decreasing values aggregates to a trajectory whose
values are non-decreasing. -/
theorem c1_witness :
    ∃ out, aggregateRuns [("W", [⟨[0, 1], [1, 2]⟩])] = Except.ok out ∧
      ∀ pr ∈ out, List.Chain' (· ≤ ·) (Prod.snd pr).values :=
  c1_values_monotone _ (by
    intro e he r hr
    rw [List.mem_singleton] at he
    subst he
    rw [List.mem_singleton] at hr
    subst hr
    exact ⟨by decide, by decide,
      List.chain'_cons.mpr ⟨by norm_num, List.chain'_singleton _⟩⟩)

end LandingPage
